import Mathlib

/-!
Shallow embedding of src/minesweeper.py: the Sentence class and the
MinesweeperAI agent (moves_made / mines / safes / knowledge together with
mark_mine, mark_safe, add_knowledge and make_safe_move).

Python cells are pairs of machine integers, modelled as ℤ × ℤ.  Python sets
of cells are modelled as Finset (ℤ × ℤ).  Python set iteration order is
unspecified; the model iterates in the lexicographic order cellLe, which
makes every operation a total function (the general theorems below do not
depend on the enumeration order).  Counts are modelled as ℤ because
Sentence.mark_mine decrements the count unconditionally and can drive it
below zero.
-/

abbrev Cell := ℤ × ℤ

/-- Lexicographic order on cells; it only fixes the enumeration order used to
model Python set iteration. -/
def cellLe (a b : Cell) : Prop := a.1 < b.1 ∨ (a.1 = b.1 ∧ a.2 ≤ b.2)

instance : DecidableRel cellLe := fun a b =>
  inferInstanceAs (Decidable (a.1 < b.1 ∨ (a.1 = b.1 ∧ a.2 ≤ b.2)))

instance : IsTrans Cell cellLe := by
  constructor
  intro a b c hab hbc
  unfold cellLe at *
  omega

instance : IsAntisymm Cell cellLe := by
  constructor
  intro a b hab hba
  unfold cellLe at *
  obtain ⟨a1, a2⟩ := a
  obtain ⟨b1, b2⟩ := b
  simp only [Prod.mk.injEq]
  simp only at hab hba
  omega

instance : IsTotal Cell cellLe := by
  constructor
  intro a b
  unfold cellLe
  omega

/-- Enumeration of a finite set of cells in cellLe order (the model of Python
set iteration).  Insertion sort is used because it reduces inside the
kernel. -/
def sortCells (s : Finset Cell) : List Cell :=
  Quot.liftOn s.val (List.insertionSort cellLe) fun a b h =>
    List.eq_of_perm_of_sorted
      ((List.perm_insertionSort _ a).trans (h.trans (List.perm_insertionSort _ b).symm))
      (List.sorted_insertionSort _ a) (List.sorted_insertionSort _ b)

/-- Python class Sentence (src/minesweeper.py): a set of board cells and a
count of how many of those cells are mines.  Sentence.__eq__ compares the
cell set and the count, which is structural equality here. -/
structure Sentence where
  cells : Finset Cell
  count : ℤ
deriving DecidableEq

namespace Sentence

/-- Sentence.known_mines: returns self.cells when len(self.cells) == self.count != 0
(a chained comparison), else the empty set. -/
def known_mines (s : Sentence) : Finset Cell :=
  if (s.cells.card : ℤ) = s.count ∧ s.count ≠ 0 then s.cells else ∅

/-- Sentence.known_safes: returns self.cells when self.cells != set() and
self.count == 0, else the empty set. -/
def known_safes (s : Sentence) : Finset Cell :=
  if s.cells ≠ ∅ ∧ s.count = 0 then s.cells else ∅

/-- Sentence.mark_mine: if cell is in self.cells, remove it and decrement
self.count. -/
def mark_mine (s : Sentence) (cell : Cell) : Sentence :=
  if cell ∈ s.cells then ⟨s.cells.erase cell, s.count - 1⟩ else s

/-- Sentence.mark_safe: if cell is in self.cells, remove it (count unchanged). -/
def mark_safe (s : Sentence) (cell : Cell) : Sentence :=
  if cell ∈ s.cells then ⟨s.cells.erase cell, s.count⟩ else s

end Sentence

/-- Python class MinesweeperAI: the agent state.  knowledge is a Python list,
modelled as a List. -/
structure AIState where
  height : ℤ
  width : ℤ
  moves_made : Finset Cell
  mines : Finset Cell
  safes : Finset Cell
  knowledge : List Sentence
deriving DecidableEq

/-- MinesweeperAI.__init__: empty moves_made, mines, safes and knowledge. -/
def AIState.init (height width : ℤ) : AIState :=
  ⟨height, width, ∅, ∅, ∅, []⟩

/-- MinesweeperAI.mark_mine: add the cell to self.mines and run
Sentence.mark_mine on every sentence in knowledge. -/
def AIState.mark_mine (st : AIState) (cell : Cell) : AIState :=
  { st with
      mines := insert cell st.mines
      knowledge := st.knowledge.map fun s => s.mark_mine cell }

/-- MinesweeperAI.mark_safe: add the cell to self.safes and run
Sentence.mark_safe on every sentence in knowledge. -/
def AIState.mark_safe (st : AIState) (cell : Cell) : AIState :=
  { st with
      safes := insert cell st.safes
      knowledge := st.knowledge.map fun s => s.mark_safe cell }

/-- Offsets (d_row, d_col) produced by the two nested loops
for d_row in range(-1, 2): for d_col in range(-1, 2) in add_knowledge,
in iteration order. -/
def neighborOffsets : List (ℤ × ℤ) :=
  [(-1, -1), (-1, 0), (-1, 1), (0, -1), (0, 0), (0, 1), (1, -1), (1, 0), (1, 1)]

/-- Neighbor computation of add_knowledge: keep the offsets with
d_row != 0 and d_col != 0 (the condition written in the source, which keeps
only the four diagonal offsets), translate them by the cell, and keep the
results with n_row in range(height) and n_col in range(width). -/
def neighborsOf (height width : ℤ) (cell : Cell) : Finset Cell :=
  (neighborOffsets.filterMap fun d =>
    if d.1 ≠ 0 ∧ d.2 ≠ 0 then
      if 0 ≤ cell.1 + d.1 ∧ cell.1 + d.1 < height ∧
          0 ≤ cell.2 + d.2 ∧ cell.2 + d.2 < width then
        some (cell.1 + d.1, cell.2 + d.2)
      else none
    else none).toFinset

/-- Loop over neighboring_mines in add_knowledge: mark each cell as a mine,
then decrement count if it is positive and otherwise break out of the loop. -/
def minesLoop : List Cell → AIState → ℤ → AIState × ℤ
  | [], st, count => (st, count)
  | c :: rest, st, count =>
    if count > 0 then minesLoop rest (st.mark_mine c) (count - 1)
    else (st.mark_mine c, count)

/-- Loop over neighboring_safes in add_knowledge: mark_safe on every listed
cell, unconditionally. -/
def markSafeRun : List Cell → AIState → AIState
  | [], st => st
  | c :: rest, st => markSafeRun rest (st.mark_safe c)

/-- Loop of the all-mine case of add_knowledge: mark_mine on each listed cell
not already in self.mines. -/
def markMinesGuarded : List Cell → AIState → AIState
  | [], st => st
  | c :: rest, st =>
    markMinesGuarded rest (if c ∈ st.mines then st else st.mark_mine c)

/-- Loop of the all-safe case of add_knowledge: mark_safe on each listed cell
not already in self.safes. -/
def markSafesGuarded : List Cell → AIState → AIState
  | [], st => st
  | c :: rest, st =>
    markSafesGuarded rest (if c ∈ st.safes then st else st.mark_safe c)

/-- MinesweeperAI.add_knowledge.  Steps as in the source: record the move,
mark the cell safe, compute the (diagonal-only) in-bounds neighbors, process
neighboring mines (adjusting count with an early break), drop known mines
from the neighbor set, re-mark neighboring safes and drop them, then either
mark all remaining neighbors as mines (when their number equals count and
count is nonzero), mark them all safe (when some remain and count is zero),
or append the residual sentence to knowledge when it is new and non-empty.
The inference steps 4 and 5 of the docstring are commented out in the
source, so nothing further happens before returning. -/
def AIState.add_knowledge (st : AIState) (cell : Cell) (count : ℤ) : AIState :=
  let st1 : AIState := { st with moves_made := insert cell st.moves_made }
  let st2 : AIState := st1.mark_safe cell
  let neighbors1 : Finset Cell := neighborsOf st2.height st2.width cell
  let p : AIState × ℤ := minesLoop (sortCells (neighbors1 ∩ st2.mines)) st2 count
  let st3 : AIState := p.1
  let count1 : ℤ := p.2
  let neighbors2 : Finset Cell := neighbors1 \ st3.mines
  let st4 : AIState := markSafeRun (sortCells (neighbors2 ∩ st3.safes)) st3
  let neighbors3 : Finset Cell := neighbors2 \ st4.safes
  if (neighbors3.card : ℤ) = count1 ∧ count1 ≠ 0 then
    markMinesGuarded (sortCells neighbors3) st4
  else if neighbors3 ≠ ∅ ∧ count1 = 0 then
    markSafesGuarded (sortCells neighbors3) st4
  else
    let ns : Sentence := ⟨neighbors3, count1⟩
    if ns ∉ st4.knowledge ∧ ns.cells ≠ ∅ then
      { st4 with knowledge := st4.knowledge ++ [ns] }
    else st4

/-- MinesweeperAI.make_safe_move: return the first cell of self.safes (in the
model's iteration order) that is not in self.moves_made, else none.  The
Python method reads but never writes the agent state, which the model
reflects by returning only the chosen cell. -/
def AIState.make_safe_move (st : AIState) : Option Cell :=
  (sortCells st.safes).find? fun c => decide (c ∉ st.moves_made)

/-- States reachable from a fresh agent by the public operations mark_mine,
mark_safe and add_knowledge. -/
inductive Reachable : AIState → Prop where
  | init (height width : ℤ) : Reachable (AIState.init height width)
  | mark_mine {st : AIState} (cell : Cell) :
      Reachable st → Reachable (st.mark_mine cell)
  | mark_safe {st : AIState} (cell : Cell) :
      Reachable st → Reachable (st.mark_safe cell)
  | add_knowledge {st : AIState} (cell : Cell) (count : ℤ) :
      Reachable st → Reachable (st.add_knowledge cell count)

/-- States reachable from a fresh agent by sequences of public operations that
are consistent with the current state: mark_mine is never invoked on a cell
already proven safe, and mark_safe / add_knowledge are never invoked on a cell
already proven to be a mine. -/
inductive ReachableCons : AIState → Prop where
  | init (height width : ℤ) : ReachableCons (AIState.init height width)
  | mark_mine {st : AIState} (cell : Cell) :
      ReachableCons st → cell ∉ st.safes → ReachableCons (st.mark_mine cell)
  | mark_safe {st : AIState} (cell : Cell) :
      ReachableCons st → cell ∉ st.mines → ReachableCons (st.mark_safe cell)
  | add_knowledge {st : AIState} (cell : Cell) (count : ℤ) :
      ReachableCons st → cell ∉ st.mines → ReachableCons (st.add_knowledge cell count)

/-- Disjointness of the safe set and the mine set, stated elementwise. -/
def AIState.disjSM (st : AIState) : Prop :=
  ∀ c ∈ st.safes, c ∉ st.mines

/-- No sentence of the knowledge base mentions a cell whose status is already
determined (in safes or in mines). -/
def AIState.clean (st : AIState) : Prop :=
  ∀ s ∈ st.knowledge, ∀ c ∈ s.cells, c ∉ st.safes ∧ c ∉ st.mines

/-- Sentence A of the subset-resolution example of the spec. -/
def sentA : Sentence := ⟨{(0, 0), (0, 1)}, 1⟩

/-- Sentence B of the subset-resolution example of the spec. -/
def sentB : Sentence := ⟨{(0, 0), (0, 1), (0, 2)}, 2⟩

/-- Agent state on a 3 by 3 board whose knowledge base holds the sentences A
and B with A.cells a proper subset of B.cells. -/
def stateAB : AIState := ⟨3, 3, ∅, ∅, ∅, [sentA, sentB]⟩

/-- State produced by revealing (1,1) with count 3 and then (0,0) with count 0
on a fresh 3 by 3 agent. -/
def stateC3 : AIState :=
  ((AIState.init 3 3).add_knowledge (1, 1) 3).add_knowledge (0, 0) 0

/-- Sentence used by the witness of the amended sentence-invariant claim. -/
def demoSentence : Sentence := ⟨{(0, 0), (0, 1)}, 1⟩

/-- Agent state with one known safe cell and no move made yet. -/
def stateSafe : AIState := ⟨3, 3, ∅, ∅, {(0, 0)}, []⟩

/-! Helper lemmas. -/

theorem mem_sortCells {c : Cell} {s : Finset Cell} : c ∈ sortCells s ↔ c ∈ s := by
  rcases s with ⟨val, nd⟩
  induction val using Quotient.inductionOn with
  | h l =>
    show c ∈ List.insertionSort cellLe l ↔ _
    rw [List.mem_insertionSort]
    simp [Finset.mem_def]

theorem Sentence.mem_mark_mine_cells {s : Sentence} {c x : Cell} :
    x ∈ (s.mark_mine c).cells ↔ x ∈ s.cells ∧ x ≠ c := by
  unfold Sentence.mark_mine
  split_ifs with h
  · show x ∈ s.cells.erase c ↔ _
    rw [Finset.mem_erase]
    exact ⟨fun hx => ⟨hx.2, hx.1⟩, fun hx => ⟨hx.2, hx.1⟩⟩
  · exact ⟨fun hx => ⟨hx, fun he => h (he ▸ hx)⟩, fun hx => hx.1⟩

theorem Sentence.mem_mark_safe_cells {s : Sentence} {c x : Cell} :
    x ∈ (s.mark_safe c).cells ↔ x ∈ s.cells ∧ x ≠ c := by
  unfold Sentence.mark_safe
  split_ifs with h
  · show x ∈ s.cells.erase c ↔ _
    rw [Finset.mem_erase]
    exact ⟨fun hx => ⟨hx.2, hx.1⟩, fun hx => ⟨hx.2, hx.1⟩⟩
  · exact ⟨fun hx => ⟨hx, fun he => h (he ▸ hx)⟩, fun hx => hx.1⟩

theorem Sentence.mark_mine_twice (s : Sentence) (c : Cell) :
    (s.mark_mine c).mark_mine c = s.mark_mine c := by
  by_cases h : c ∈ s.cells <;> simp [Sentence.mark_mine, h]

theorem markSafeRun_mines : ∀ (l : List Cell) (st : AIState),
    (markSafeRun l st).mines = st.mines := by
  intro l
  induction l with
  | nil => intro st; rfl
  | cons c rest ih =>
    intro st
    simp only [markSafeRun]
    rw [ih]
    rfl

theorem disj_mark_mine (st : AIState) (c : Cell) (hd : st.disjSM)
    (hc : c ∉ st.safes) : (st.mark_mine c).disjSM := by
  intro x hx hm
  have hx' : x ∈ st.safes := hx
  have hm' : x ∈ insert c st.mines := hm
  rcases Finset.mem_insert.mp hm' with h | h
  · exact hc (h ▸ hx')
  · exact hd x hx' h

theorem disj_mark_safe (st : AIState) (c : Cell) (hd : st.disjSM)
    (hc : c ∉ st.mines) : (st.mark_safe c).disjSM := by
  intro x hx hm
  have hx' : x ∈ insert c st.safes := hx
  have hm' : x ∈ st.mines := hm
  rcases Finset.mem_insert.mp hx' with h | h
  · exact hc (h ▸ hm')
  · exact hd x h hm'

theorem disj_minesLoop : ∀ (l : List Cell) (st : AIState) (n : ℤ),
    st.disjSM → (∀ c ∈ l, c ∈ st.mines) → ((minesLoop l st n).1).disjSM := by
  intro l
  induction l with
  | nil => intro st n hd _; exact hd
  | cons c rest ih =>
    intro st n hd h
    have hcm : c ∈ st.mines := h c (List.mem_cons_self c rest)
    have hcs : c ∉ st.safes := fun hs => hd c hs hcm
    simp only [minesLoop]
    split_ifs
    · exact ih _ _ (disj_mark_mine st c hd hcs)
        fun x hx => Finset.mem_insert_of_mem (h x (List.mem_cons_of_mem c hx))
    · exact disj_mark_mine st c hd hcs

theorem disj_minesLoop_inter (N : Finset Cell) (st : AIState) (n : ℤ)
    (hd : st.disjSM) : ((minesLoop (sortCells (N ∩ st.mines)) st n).1).disjSM :=
  disj_minesLoop _ _ _ hd fun _ hc => (Finset.mem_inter.mp (mem_sortCells.mp hc)).2

theorem disj_markSafeRun : ∀ (l : List Cell) (st : AIState),
    st.disjSM → (∀ c ∈ l, c ∈ st.safes) → (markSafeRun l st).disjSM := by
  intro l
  induction l with
  | nil => intro st hd _; exact hd
  | cons c rest ih =>
    intro st hd h
    have hcs : c ∈ st.safes := h c (List.mem_cons_self c rest)
    have hcm : c ∉ st.mines := hd c hcs
    simp only [markSafeRun]
    exact ih _ (disj_mark_safe st c hd hcm)
      fun x hx => Finset.mem_insert_of_mem (h x (List.mem_cons_of_mem c hx))

theorem disj_markSafeRun_inter (N : Finset Cell) (st : AIState)
    (hd : st.disjSM) : (markSafeRun (sortCells (N ∩ st.safes)) st).disjSM :=
  disj_markSafeRun _ _ hd fun _ hc => (Finset.mem_inter.mp (mem_sortCells.mp hc)).2

theorem disj_markMinesGuarded : ∀ (l : List Cell) (st : AIState),
    st.disjSM → (∀ c ∈ l, c ∉ st.safes) → (markMinesGuarded l st).disjSM := by
  intro l
  induction l with
  | nil => intro st hd _; exact hd
  | cons c rest ih =>
    intro st hd h
    simp only [markMinesGuarded]
    split_ifs
    · exact ih st hd fun x hx => h x (List.mem_cons_of_mem c hx)
    · exact ih _ (disj_mark_mine st c hd (h c (List.mem_cons_self c rest)))
        fun x hx => h x (List.mem_cons_of_mem c hx)

theorem disj_markMinesGuarded_sdiff (N : Finset Cell) (st : AIState)
    (hd : st.disjSM) : (markMinesGuarded (sortCells (N \ st.safes)) st).disjSM :=
  disj_markMinesGuarded _ _ hd fun _ hc => (Finset.mem_sdiff.mp (mem_sortCells.mp hc)).2

theorem disj_markSafesGuarded : ∀ (l : List Cell) (st : AIState),
    st.disjSM → (∀ c ∈ l, c ∉ st.mines) → (markSafesGuarded l st).disjSM := by
  intro l
  induction l with
  | nil => intro st hd _; exact hd
  | cons c rest ih =>
    intro st hd h
    simp only [markSafesGuarded]
    split_ifs
    · exact ih st hd fun x hx => h x (List.mem_cons_of_mem c hx)
    · exact ih _ (disj_mark_safe st c hd (h c (List.mem_cons_self c rest)))
        fun x hx => h x (List.mem_cons_of_mem c hx)

theorem disj_add_knowledge (st : AIState) (cell : Cell) (n : ℤ)
    (hd : st.disjSM) (hc : cell ∉ st.mines) :
    (st.add_knowledge cell n).disjSM := by
  simp only [AIState.add_knowledge]
  have hd2 : (({ st with moves_made := insert cell st.moves_made } : AIState).mark_safe cell).disjSM :=
    disj_mark_safe { st with moves_made := insert cell st.moves_made } cell hd hc
  split_ifs with hA hB hC
  · exact disj_markMinesGuarded_sdiff _ _
      (disj_markSafeRun_inter _ _ (disj_minesLoop_inter _ _ _ hd2))
  · apply disj_markSafesGuarded
    · exact disj_markSafeRun_inter _ _ (disj_minesLoop_inter _ _ _ hd2)
    · intro c hcl hcm
      rw [mem_sortCells] at hcl
      rw [markSafeRun_mines] at hcm
      exact (Finset.mem_sdiff.mp (Finset.mem_sdiff.mp hcl).1).2 hcm
  · exact disj_markSafeRun_inter _ _ (disj_minesLoop_inter _ _ _ hd2)
  · exact disj_markSafeRun_inter _ _ (disj_minesLoop_inter _ _ _ hd2)

theorem clean_mark_mine (st : AIState) (c : Cell) (h : st.clean) :
    (st.mark_mine c).clean := by
  intro s' hs' x hx
  have hs'' : s' ∈ st.knowledge.map fun s => s.mark_mine c := hs'
  rcases List.mem_map.mp hs'' with ⟨s, hs, rfl⟩
  rcases Sentence.mem_mark_mine_cells.mp hx with ⟨hxs, hxc⟩
  obtain ⟨h1, h2⟩ := h s hs x hxs
  refine ⟨h1, ?_⟩
  intro hm
  rcases Finset.mem_insert.mp hm with hh | hh
  · exact hxc hh
  · exact h2 hh

theorem clean_mark_safe (st : AIState) (c : Cell) (h : st.clean) :
    (st.mark_safe c).clean := by
  intro s' hs' x hx
  have hs'' : s' ∈ st.knowledge.map fun s => s.mark_safe c := hs'
  rcases List.mem_map.mp hs'' with ⟨s, hs, rfl⟩
  rcases Sentence.mem_mark_safe_cells.mp hx with ⟨hxs, hxc⟩
  obtain ⟨h1, h2⟩ := h s hs x hxs
  refine ⟨?_, h2⟩
  intro hm
  rcases Finset.mem_insert.mp hm with hh | hh
  · exact hxc hh
  · exact h1 hh

theorem clean_minesLoop : ∀ (l : List Cell) (st : AIState) (n : ℤ),
    st.clean → ((minesLoop l st n).1).clean := by
  intro l
  induction l with
  | nil => intro st n h; exact h
  | cons c rest ih =>
    intro st n h
    simp only [minesLoop]
    split_ifs
    · exact ih _ _ (clean_mark_mine st c h)
    · exact clean_mark_mine st c h

theorem clean_markSafeRun : ∀ (l : List Cell) (st : AIState),
    st.clean → (markSafeRun l st).clean := by
  intro l
  induction l with
  | nil => intro st h; exact h
  | cons c rest ih =>
    intro st h
    simp only [markSafeRun]
    exact ih _ (clean_mark_safe st c h)

theorem clean_markMinesGuarded : ∀ (l : List Cell) (st : AIState),
    st.clean → (markMinesGuarded l st).clean := by
  intro l
  induction l with
  | nil => intro st h; exact h
  | cons c rest ih =>
    intro st h
    simp only [markMinesGuarded]
    split_ifs
    · exact ih st h
    · exact ih _ (clean_mark_mine st c h)

theorem clean_markSafesGuarded : ∀ (l : List Cell) (st : AIState),
    st.clean → (markSafesGuarded l st).clean := by
  intro l
  induction l with
  | nil => intro st h; exact h
  | cons c rest ih =>
    intro st h
    simp only [markSafesGuarded]
    split_ifs
    · exact ih st h
    · exact ih _ (clean_mark_safe st c h)

theorem clean_append (st : AIState) (ns : Sentence) (h : st.clean)
    (hns : ∀ c ∈ ns.cells, c ∉ st.safes ∧ c ∉ st.mines) :
    ({ st with knowledge := st.knowledge ++ [ns] } : AIState).clean := by
  intro s hs x hx
  have hs' : s ∈ st.knowledge ++ [ns] := hs
  rcases List.mem_append.mp hs' with hh | hh
  · exact h s hh x hx
  · have he : s = ns := by simpa using hh
    subst he
    exact hns x hx

theorem clean_add_knowledge (st : AIState) (cell : Cell) (n : ℤ)
    (h : st.clean) : (st.add_knowledge cell n).clean := by
  simp only [AIState.add_knowledge]
  have h2 : (({ st with moves_made := insert cell st.moves_made } : AIState).mark_safe cell).clean :=
    clean_mark_safe { st with moves_made := insert cell st.moves_made } cell h
  split_ifs with hA hB hC
  · exact clean_markMinesGuarded _ _ (clean_markSafeRun _ _ (clean_minesLoop _ _ _ h2))
  · exact clean_markSafesGuarded _ _ (clean_markSafeRun _ _ (clean_minesLoop _ _ _ h2))
  · apply clean_append _ _ (clean_markSafeRun _ _ (clean_minesLoop _ _ _ h2))
    intro c hcc
    refine ⟨(Finset.mem_sdiff.mp hcc).2, ?_⟩
    intro hcm
    rw [markSafeRun_mines] at hcm
    exact (Finset.mem_sdiff.mp (Finset.mem_sdiff.mp hcc).1).2 hcm
  · exact clean_markSafeRun _ _ (clean_minesLoop _ _ _ h2)

/-! Claim theorems. -/

/-- Claim C1: the spec requires add_knowledge to collect all 8-connectivity
neighbors, so that on a 3 by 3 board add_knowledge((1,1), 0) makes all 8
neighbors of (1,1) safe.  The code filters offsets with the condition
d_row != 0 and d_col != 0, keeping only the four diagonal neighbors: after
the call, safes holds only (1,1) and the four corners, and the orthogonal
neighbor (0,1) is not in safes (no sentence is retained, as the claim also
says). -/
theorem claim1_neighbors_diagonal_only :
    ((AIState.init 3 3).add_knowledge (1, 1) 0).safes =
      {((1:ℤ), (1:ℤ)), (0, 0), (0, 2), (2, 0), (2, 2)} ∧
    ((0:ℤ), (1:ℤ)) ∉ ((AIState.init 3 3).add_knowledge (1, 1) 0).safes ∧
    ((AIState.init 3 3).add_knowledge (1, 1) 0).knowledge = [] := by
  decide

/-- Claim C2: with sentences A = ({(0,0),(0,1)}, 1) and
B = ({(0,0),(0,1),(0,2)}, 2) in the knowledge base, the claim says an
add_knowledge call derives the difference sentence ({(0,2)}, 1) and marks
(0,2) as a mine.  The subset-resolution block of the source is commented
out: after add_knowledge((2,2), 0) the knowledge base is unchanged, the
difference sentence is absent and (0,2) is not in mines. -/
theorem claim2_no_subset_inference :
    (stateAB.add_knowledge (2, 2) 0).knowledge = [sentA, sentB] ∧
    (⟨{((0:ℤ), (2:ℤ))}, 1⟩ : Sentence) ∉ (stateAB.add_knowledge (2, 2) 0).knowledge ∧
    ((0:ℤ), (2:ℤ)) ∉ (stateAB.add_knowledge (2, 2) 0).mines := by
  decide

/-- Claim C3: the claim says add_knowledge runs inference to a fixpoint, so
no sentence with known_mines outside mines survives a call.  The sweep of
step 4 of the docstring is commented out in the source: after
add_knowledge((1,1), 3) and then add_knowledge((0,0), 0) on a fresh 3 by 3
agent, knowledge still holds the sentence ({(0,2),(2,0),(2,2)}, 3), whose
known_mines is its whole cell set, while mines is empty. -/
theorem claim3_no_fixpoint_sweep :
    stateC3.knowledge = [⟨{((0:ℤ), (2:ℤ)), (2, 0), (2, 2)}, 3⟩] ∧
    (⟨{((0:ℤ), (2:ℤ)), (2, 0), (2, 2)}, 3⟩ : Sentence).known_mines =
      {((0:ℤ), (2:ℤ)), (2, 0), (2, 2)} ∧
    stateC3.mines = ∅ := by
  decide

/-- Claim C4: the claim says add_knowledge((0,0), 3) on a fresh 3 by 3 agent
marks the three in-bounds neighbors of the corner as mines (case a).  With
the diagonal-only neighbor computation of the source, the corner has one
computed neighbor, so case a does not fire: mines stays empty and the
contradictory sentence ({(1,1)}, 3) is appended to knowledge instead. -/
theorem claim4_corner_mines_unmarked :
    ((AIState.init 3 3).add_knowledge (0, 0) 3).mines = ∅ ∧
    ((AIState.init 3 3).add_knowledge (0, 0) 3).knowledge =
      [⟨{((1:ℤ), (1:ℤ))}, 3⟩] := by
  decide

/-- Counterexample to claim C5 as stated: the state reached from a fresh
agent by the operation sequence mark_mine((0,0)); mark_safe((0,0)) has
(0,0) in both safes and mines, so safes and mines are not disjoint after
every sequence of public operations. -/
theorem claim5_disjoint_cex :
    (((AIState.init 3 3).mark_mine (0, 0)).mark_safe (0, 0)).safes ∩
      (((AIState.init 3 3).mark_mine (0, 0)).mark_safe (0, 0)).mines ≠ ∅ := by
  decide

/-- Claim C5, amended: safes and mines stay disjoint on every state reachable
by sequences of public operations that are consistent with the current
state — mark_mine is never applied to a cell already in safes, and
mark_safe / add_knowledge are never applied to a cell already in mines. -/
theorem claim5_disjoint_of_consistent {st : AIState} (h : ReachableCons st) :
    st.safes ∩ st.mines = ∅ := by
  have hd : st.disjSM := by
    induction h with
    | init height width => intro c hc; exact absurd hc (Finset.not_mem_empty c)
    | mark_mine cell h hc ih => exact disj_mark_mine _ cell ih hc
    | mark_safe cell h hc ih => exact disj_mark_safe _ cell ih hc
    | add_knowledge cell count h hc ih => exact disj_add_knowledge _ cell count ih hc
  rw [Finset.eq_empty_iff_forall_not_mem]
  intro c hc
  rw [Finset.mem_inter] at hc
  exact hd c hc.1 hc.2

/-- Witness for the amended claim C5 at a concrete consistently-reached
state. -/
theorem claim5_disjoint_witness :
    ((AIState.init 3 3).add_knowledge (1, 1) 0).safes ∩
      ((AIState.init 3 3).add_knowledge (1, 1) 0).mines = ∅ :=
  claim5_disjoint_of_consistent
    (ReachableCons.add_knowledge (1, 1) 0 (ReachableCons.init 3 3) (by decide))

/-- Claim C8: the agent-level mark_mine is idempotent — applying it twice
with the same cell yields exactly the same agent state (mines set and every
sentence in knowledge included) as applying it once. -/
theorem claim8_mark_mine_idem (st : AIState) (c : Cell) :
    (st.mark_mine c).mark_mine c = st.mark_mine c := by
  cases st with
  | mk height width moves_made mines safes knowledge =>
    simp [AIState.mark_mine, List.map_map, Function.comp_def, Sentence.mark_mine_twice]

/-- Claim C10: from a fresh agent, every state reachable by the public
operations mark_mine, mark_safe and add_knowledge keeps the invariant that
no sentence in knowledge contains a cell that is in safes or in mines. -/
theorem claim10_knowledge_clean {st : AIState} (h : Reachable st) : st.clean := by
  induction h with
  | init height width => intro s hs; exact absurd hs (List.not_mem_nil s)
  | mark_mine cell h ih => exact clean_mark_mine _ cell ih
  | mark_safe cell h ih => exact clean_mark_safe _ cell ih
  | add_knowledge cell count h ih => exact clean_add_knowledge _ cell count ih

/-- Witness for claim C10 at a concrete reachable state. -/
theorem claim10_knowledge_clean_witness :
    ((AIState.init 3 3).add_knowledge (1, 1) 1).clean :=
  claim10_knowledge_clean
    (Reachable.add_knowledge (1, 1) 1 (Reachable.init 3 3))

/-- Counterexample to claim C6 as stated: the sentence ({(0,0)}, 0) satisfies
0 <= count <= card of cells, yet after the mutation mark_mine((0,0)) its
count is -1, violating the invariant. -/
theorem claim6_invariant_cex :
    (0 ≤ (⟨{((0:ℤ), (0:ℤ))}, 0⟩ : Sentence).count ∧
      (⟨{((0:ℤ), (0:ℤ))}, 0⟩ : Sentence).count ≤
        ((⟨{((0:ℤ), (0:ℤ))}, 0⟩ : Sentence).cells.card : ℤ)) ∧
    ((⟨{((0:ℤ), (0:ℤ))}, 0⟩ : Sentence).mark_mine ((0:ℤ), (0:ℤ))).count < 0 := by
  decide

/-- Claim C6, amended: for a Sentence s with 0 <= count <= card of cells, the
invariant is preserved by mark_mine(cell) provided count is positive when
cell is in the cell set, and by mark_safe(cell) provided count is below the
cell count when cell is in the cell set (the provisos hold whenever the
marked fact is consistent with the sentence); without the provisos the
mutations can break the invariant, and the agent can construct and insert a
sentence violating it. -/
theorem claim6_invariant_preserved (s : Sentence) (cell : Cell)
    (h0 : 0 ≤ s.count) (h1 : s.count ≤ (s.cells.card : ℤ)) :
    ((cell ∈ s.cells → 0 < s.count) →
        0 ≤ (s.mark_mine cell).count ∧
        (s.mark_mine cell).count ≤ ((s.mark_mine cell).cells.card : ℤ)) ∧
    ((cell ∈ s.cells → s.count < (s.cells.card : ℤ)) →
        0 ≤ (s.mark_safe cell).count ∧
        (s.mark_safe cell).count ≤ ((s.mark_safe cell).cells.card : ℤ)) := by
  by_cases hc : cell ∈ s.cells
  · have hcard := Finset.card_erase_of_mem hc
    have hpos : 0 < s.cells.card := Finset.card_pos.mpr ⟨cell, hc⟩
    constructor
    · intro hyp
      have hcount := hyp hc
      unfold Sentence.mark_mine
      rw [if_pos hc]
      constructor
      · show 0 ≤ s.count - 1
        omega
      · show s.count - 1 ≤ ((s.cells.erase cell).card : ℤ)
        rw [hcard]
        omega
    · intro hyp
      have hcount := hyp hc
      unfold Sentence.mark_safe
      rw [if_pos hc]
      constructor
      · show 0 ≤ s.count
        omega
      · show s.count ≤ ((s.cells.erase cell).card : ℤ)
        rw [hcard]
        omega
  · constructor
    · intro hyp
      unfold Sentence.mark_mine
      rw [if_neg hc]
      exact ⟨h0, h1⟩
    · intro hyp
      unfold Sentence.mark_safe
      rw [if_neg hc]
      exact ⟨h0, h1⟩

/-- Witness for the amended claim C6 at the sentence ({(0,0),(0,1)}, 1) and
the cell (0,0), where both provisos hold. -/
theorem claim6_invariant_witness :
    (0 ≤ (demoSentence.mark_mine (0, 0)).count ∧
      (demoSentence.mark_mine (0, 0)).count ≤
        ((demoSentence.mark_mine (0, 0)).cells.card : ℤ)) ∧
    (0 ≤ (demoSentence.mark_safe (0, 0)).count ∧
      (demoSentence.mark_safe (0, 0)).count ≤
        ((demoSentence.mark_safe (0, 0)).cells.card : ℤ)) :=
  ⟨(claim6_invariant_preserved demoSentence (0, 0) (by decide) (by decide)).1
      fun _ => by decide,
    (claim6_invariant_preserved demoSentence (0, 0) (by decide) (by decide)).2
      fun _ => by decide⟩

/-- Claim C7: for every Sentence, if count equals the number of cells and
that number is positive then known_mines is the whole cell set and
known_safes is empty; if count is zero and the cell set is non-empty then
known_safes is the whole cell set and known_mines is empty; in every other
case both queries return the empty set. -/
theorem claim7_known_queries (s : Sentence) :
    ((s.count = (s.cells.card : ℤ) ∧ 0 < s.cells.card) →
        s.known_mines = s.cells ∧ s.known_safes = ∅) ∧
    ((s.count = 0 ∧ s.cells ≠ ∅) →
        s.known_safes = s.cells ∧ s.known_mines = ∅) ∧
    (¬(s.count = (s.cells.card : ℤ) ∧ 0 < s.cells.card) →
      ¬(s.count = 0 ∧ s.cells ≠ ∅) →
        s.known_mines = ∅ ∧ s.known_safes = ∅) := by
  refine ⟨?_, ?_, ?_⟩
  · rintro ⟨h1, h2⟩
    constructor
    · unfold Sentence.known_mines
      rw [if_pos]
      exact ⟨h1.symm, by omega⟩
    · unfold Sentence.known_safes
      rw [if_neg]
      rintro ⟨-, h3⟩
      omega
  · rintro ⟨h1, h2⟩
    constructor
    · unfold Sentence.known_safes
      rw [if_pos]
      exact ⟨h2, h1⟩
    · unfold Sentence.known_mines
      rw [if_neg]
      rintro ⟨-, h3⟩
      exact h3 h1
  · intro hA hB
    constructor
    · unfold Sentence.known_mines
      rw [if_neg]
      rintro ⟨h1, h2⟩
      exact hA ⟨h1.symm, by omega⟩
    · unfold Sentence.known_safes
      rw [if_neg]
      rintro ⟨h1, h2⟩
      exact hB ⟨h2, h1⟩

/-- Witness for claim C7, exercising all three cases on concrete sentences. -/
theorem claim7_known_queries_witness :
    ((⟨{((0:ℤ), (0:ℤ))}, 1⟩ : Sentence).known_mines = {((0:ℤ), (0:ℤ))} ∧
      (⟨{((0:ℤ), (0:ℤ))}, 1⟩ : Sentence).known_safes = ∅) ∧
    ((⟨{((1:ℤ), (1:ℤ))}, 0⟩ : Sentence).known_safes = {((1:ℤ), (1:ℤ))} ∧
      (⟨{((1:ℤ), (1:ℤ))}, 0⟩ : Sentence).known_mines = ∅) ∧
    ((⟨{((2:ℤ), (2:ℤ))}, 2⟩ : Sentence).known_mines = ∅ ∧
      (⟨{((2:ℤ), (2:ℤ))}, 2⟩ : Sentence).known_safes = ∅) :=
  ⟨(claim7_known_queries ⟨{(0, 0)}, 1⟩).1 (by decide),
    (claim7_known_queries ⟨{(1, 1)}, 0⟩).2.1 (by decide),
    (claim7_known_queries ⟨{(2, 2)}, 2⟩).2.2 (by decide) (by decide)⟩

/-- Claim C9: make_safe_move returns none exactly when safes minus
moves_made is empty, and otherwise returns an element of safes minus
moves_made, so it never returns a cell already in moves_made (the model of
the method is a pure function of the state, matching the requirement that
it not mutate moves_made, safes, mines or knowledge). -/
theorem claim9_make_safe_move (st : AIState) :
    (st.make_safe_move = none ↔ st.safes \ st.moves_made = ∅) ∧
    ∀ c : Cell, st.make_safe_move = some c → c ∈ st.safes \ st.moves_made := by
  constructor
  · unfold AIState.make_safe_move
    rw [List.find?_eq_none]
    constructor
    · intro h
      rw [Finset.eq_empty_iff_forall_not_mem]
      intro c hc
      rw [Finset.mem_sdiff] at hc
      have h2 := h c (mem_sortCells.mpr hc.1)
      simp only [decide_eq_true_eq, not_not] at h2
      exact hc.2 h2
    · intro h c hcl
      rw [mem_sortCells] at hcl
      simp only [decide_eq_true_eq, not_not]
      by_contra hnm
      have hmem : c ∈ st.safes \ st.moves_made :=
        Finset.mem_sdiff.mpr ⟨hcl, hnm⟩
      rw [h] at hmem
      exact absurd hmem (Finset.not_mem_empty c)
  · intro c hc
    unfold AIState.make_safe_move at hc
    have h1 := List.find?_some hc
    have h2 := List.mem_of_find?_eq_some hc
    rw [mem_sortCells] at h2
    simp only [decide_eq_true_eq] at h1
    exact Finset.mem_sdiff.mpr ⟨h2, h1⟩

/-- Witness for claim C9 at a state with one known safe cell and no move
made. -/
theorem claim9_make_safe_move_witness :
    ((0:ℤ), (0:ℤ)) ∈ stateSafe.safes \ stateSafe.moves_made :=
  (claim9_make_safe_move stateSafe).2 (0, 0) (by decide)
